import Mathlib

/-!
Shallow embedding of the Advent-of-Code 2021 solutions `day4.py` (bingo
engine) and `day5.py` (hydrothermal-vent overlap counter), together with
proofs settling the specification claims about them.

Python integers are modelled as `Int`, Python lists as `List`,
`numpy` 2-D arrays as `List (List _)` and exceptions as `Option`
(`none` = the call raised).
-/

namespace Day5

/-- `Point` from `day5.py`: a 2D point with integer coordinates. -/
structure Point where
  x : Int
  y : Int
deriving DecidableEq, Repr

/-- `Segment` from `day5.py`: a segment from a point to another.
The dataclass fields are `_from` and `_to`. -/
structure Segment where
  _from : Point
  _to : Point
deriving DecidableEq, Repr

/-- `Segment.is_vertical`: `self._from.x == self._to.x`. -/
def Segment.is_vertical (s : Segment) : Bool :=
  s._from.x == s._to.x

/-- `Segment.is_horizontal`: `self._from.y == self._to.y`. -/
def Segment.is_horizontal (s : Segment) : Bool :=
  s._from.y == s._to.y

/-- `Segment.is_diagonal_anti_slash`:
`(x1 < x2 and y1 < y2) or (x1 > x2 and y1 > y2)`.
The source relies on the input only containing horizontal, vertical and
45-degree diagonal segments: no `|dx| == |dy|` check is made. -/
def Segment.is_diagonal_anti_slash (s : Segment) : Bool :=
  (decide (s._from.x < s._to.x) && decide (s._from.y < s._to.y)) ||
    (decide (s._from.x > s._to.x) && decide (s._from.y > s._to.y))

/-- `Segment.is_diagonal_slash`:
`(x1 < x2 and y1 > y2) or (x1 > x2 and y1 < y2)`. -/
def Segment.is_diagonal_slash (s : Segment) : Bool :=
  (decide (s._from.x < s._to.x) && decide (s._from.y > s._to.y)) ||
    (decide (s._from.x > s._to.x) && decide (s._from.y < s._to.y))

/-- `Segment.__post_init__`: the normalisation performed at construction.
Every `Segment` the program manipulates is built through this function. -/
def Segment.mk' (p q : Point) : Segment :=
  let s : Segment := ⟨p, q⟩
  if s.is_horizontal && decide (p.x > q.x) then ⟨q, p⟩
  else if s.is_vertical && decide (p.y > q.y) then ⟨q, p⟩
  else if s.is_diagonal_anti_slash && decide (p.x > q.x) then ⟨q, p⟩
  else if s.is_diagonal_slash && decide (p.x > q.x) then ⟨q, p⟩
  else s

/-- Python `range(lo, hi)` (step `1`) over integers. -/
def pyRange (lo hi : Int) : List Int :=
  (List.range (hi - lo).toNat).map (fun (i : Nat) => lo + (i : Int))

/-- Python `range(lo, hi, -1)` over integers. -/
def pyRangeDown (lo hi : Int) : List Int :=
  (List.range (lo - hi).toNat).map (fun (i : Nat) => lo - (i : Int))

/-- `Segment.all_points`: the points of the segment, or `none` when the
final `raise ValueError` branch is reached. -/
def Segment.all_points (s : Segment) : Option (List Point) :=
  if s.is_horizontal then
    some ((pyRange s._from.x (s._to.x + 1)).map (fun x => ⟨x, s._from.y⟩))
  else if s.is_vertical then
    some ((pyRange s._from.y (s._to.y + 1)).map (fun y => ⟨s._from.x, y⟩))
  else if s.is_diagonal_anti_slash then
    some (((pyRange s._from.x (s._to.x + 1)).zip
      (pyRange s._from.y (s._to.y + 1))).map (fun p => ⟨p.1, p.2⟩))
  else if s.is_diagonal_slash then
    some (((pyRange s._from.x (s._to.x + 1)).zip
      (pyRangeDown s._from.y (s._to.y - 1))).map (fun p => ⟨p.1, p.2⟩))
  else
    none

/-- Rasterize a list of segments in order, propagating a `ValueError`
raised by any `all_points` call (models `itertools.chain.from_iterable`). -/
def segListPoints : List Segment → Option (List Point)
  | [] => some []
  | s :: rest => do
      let ps ← s.all_points
      let qs ← segListPoints rest
      pure (ps ++ qs)

/-- `HydrothermalVentsMap` from `day5.py`. -/
structure HydrothermalVentsMap where
  segments : List Segment
deriving Repr

/-- `HydrothermalVentsMap.h_or_v_segments`. -/
def HydrothermalVentsMap.h_or_v_segments (m : HydrothermalVentsMap) : List Segment :=
  m.segments.filter (fun seg => seg.is_vertical || seg.is_horizontal)

/-- `HydrothermalVentsMap.all_points_hv`. -/
def HydrothermalVentsMap.all_points_hv (m : HydrothermalVentsMap) : Option (List Point) :=
  segListPoints m.h_or_v_segments

/-- `HydrothermalVentsMap.all_points`. -/
def HydrothermalVentsMap.all_points (m : HydrothermalVentsMap) : Option (List Point) :=
  segListPoints m.segments

/-- `Counter(pts)` followed by counting the pairs with multiplicity `>= 2`:
the number of distinct points covered at least twice. -/
def nbOverlapsOf (pts : List Point) : Nat :=
  (pts.toFinset.filter (fun p => 2 ≤ pts.count p)).card

/-- `HydrothermalVentsMap.nb_overlaps_hv`. -/
def HydrothermalVentsMap.nb_overlaps_hv (m : HydrothermalVentsMap) : Option Nat :=
  m.all_points_hv.map nbOverlapsOf

/-- `HydrothermalVentsMap.nb_overlaps_full`. -/
def HydrothermalVentsMap.nb_overlaps_full (m : HydrothermalVentsMap) : Option Nat :=
  m.all_points.map nbOverlapsOf

/-- What rasterization does on a 45-degree diagonal built from endpoints
`p` and `q`: it succeeds with a list of exactly `|q.x - p.x| + 1` points
that starts at the segment's (normalised) first endpoint, steps `x` by
`+1` and `y` by the diagonal's slope sign `sy` at every step, and ends at
the segment's second endpoint. -/
def diagWalkSpec (p q : Point) : Prop :=
  ∃ (sy : Int) (l : List Point),
    (sy = 1 ∨ sy = -1) ∧
    q.y - p.y = sy * (q.x - p.x) ∧
    (Segment.mk' p q).all_points = some l ∧
    l.length = (q.x - p.x).natAbs + 1 ∧
    l = (List.range ((q.x - p.x).natAbs + 1)).map
      (fun (i : Nat) => ⟨(Segment.mk' p q)._from.x + (i : Int),
                         (Segment.mk' p q)._from.y + sy * (i : Int)⟩) ∧
    (Segment.mk' p q)._to =
      ⟨(Segment.mk' p q)._from.x + ((q.x - p.x).natAbs : Int),
       (Segment.mk' p q)._from.y + sy * ((q.x - p.x).natAbs : Int)⟩

end Day5

namespace Day4

/-- `Board` from `day4.py`: `numbers` is the numpy grid of cell values,
`marked` the parallel boolean grid, `winning_number` the optional draw
value on which the board won (`None` initially). -/
structure Board where
  numbers : List (List Int)
  marked : List (List Bool)
  winning_number : Option Int
deriving DecidableEq, Repr

/-- `Board.__post_init__` after the dataclass constructor:
`marked = np.zeros_like(numbers, dtype=bool)`. -/
def Board.mkBoard (numbers : List (List Int)) : Board :=
  ⟨numbers, numbers.map (fun row => row.map (fun _ => false)), none⟩

/-- Row-major first index of `v` in the grid, as produced by
`next(idx for idx, val in np.ndenumerate(self.numbers) if val == number)`. -/
def findCell (v : Int) : List (List Int) → Option (Nat × Nat)
  | [] => none
  | row :: rest =>
      match row.findIdx? (fun x => x == v) with
      | some c => some (0, c)
      | none => (findCell v rest).map (fun p => (p.1 + 1, p.2))

/-- `self.marked[found_idx] = True` for a row-column index. -/
def setCell : List (List Bool) → Nat → Nat → List (List Bool)
  | [], _, _ => []
  | row :: rest, 0, c => row.set c true :: rest
  | row :: rest, r + 1, c => row :: setCell rest r c

/-- `Board.try_to_mark_number` (state effect only; the returned bool is
never used by the replay loop). A `StopIteration` leaves the board as is. -/
def Board.markNumber (b : Board) (v : Int) : Board :=
  match findCell v b.numbers with
  | none => b
  | some idx => { b with marked := setCell b.marked idx.1 idx.2 }

/-- Sum of one row restricted to the cells whose mask equals `keep`
(the rows of `numbers` and `marked` always have equal length in the
states the program reaches). -/
def rowMasked (keep : Bool) : List Int → List Bool → Int
  | n :: ns, m :: ms => (if m == keep then n else 0) + rowMasked keep ns ms
  | _, _ => 0

/-- Sum of the grid cells whose mask equals `keep`
(models numpy boolean-mask indexing followed by `.sum()`). -/
def maskedSum (keep : Bool) : List (List Int) → List (List Bool) → Int
  | nr :: nrest, mr :: mrest => rowMasked keep nr mr + maskedSum keep nrest mrest
  | _, _ => 0

/-- `Board.unmarked_sum`: `self.numbers[~self.marked].sum()`. -/
def Board.unmarked_sum (b : Board) : Int :=
  maskedSum false b.numbers b.marked

/-- The marked counterpart, used by the invariant claims:
`self.numbers[self.marked].sum()`. -/
def Board.marked_sum (b : Board) : Int :=
  maskedSum true b.numbers b.marked

/-- Sum of every cell of a grid. -/
def totalSum (numbers : List (List Int)) : Int :=
  (numbers.map List.sum).sum

/-- `Board.do_we_have_a_winner`: some row of `marked`, or some row of
`marked.T`, is entirely `True`. -/
def Board.do_we_have_a_winner (b : Board) : Bool :=
  b.marked.any (fun line => line.all (fun x => x)) ||
    b.marked.transpose.any (fun col => col.all (fun x => x))

/-- A full line of the marked grid, in the claim's words: some full row,
or some full column (a row of the transposed grid), is entirely marked.
Diagonals are not considered. -/
def hasFullLine (m : List (List Bool)) : Prop :=
  (∃ row ∈ m, ∀ x ∈ row, x = true) ∨
    (∃ col ∈ m.transpose, ∀ x ∈ col, x = true)

/-- `Board.score`: `assert self.winning_number` then
`unmarked_sum() * winning_number`.  Python's `assert` tests truthiness,
so it fails (`none`) both when `winning_number` is `None` and when it
is the integer `0`. -/
def Board.score (b : Board) : Option Int :=
  match b.winning_number with
  | none => none
  | some n => if n = 0 then none else some (b.unmarked_sum * n)

/-- First `for` loop of `Bingo.__post_init__` for one draw: board at
index `k + i` is marked unless its index is already in `w`. -/
def markPass (w : List Nat) (v : Int) (k : Nat) : List Board → List Board
  | [] => []
  | b :: bs => (if w.contains k then b else b.markNumber v) :: markPass w v (k + 1) bs

/-- Indices appended to `winning_board_idx` by the second `for` loop of
`Bingo.__post_init__` for one draw: the not-yet-won boards that now have
a winning line, in board order.  (The Python loop appends to
`winning_board_idx` while iterating, but each appended index is the one
currently visited, so membership tests for later indices are unaffected.) -/
def winScan (w : List Nat) (k : Nat) : List Board → List Nat
  | [] => []
  | b :: bs =>
      (if !w.contains k && b.do_we_have_a_winner then [k] else []) ++
        winScan w (k + 1) bs

/-- `board.winning_number = num` performed by the second loop on exactly
the boards whose index it appends. -/
def crownPass (nw : List Nat) (v : Int) (k : Nat) : List Board → List Board
  | [] => []
  | b :: bs =>
      (if nw.contains k then { b with winning_number := some v } else b) ::
        crownPass nw v (k + 1) bs

/-- One iteration of the outer `for num in self.drawn_numbers` loop. -/
def bingoStep (st : List Board × List Nat) (v : Int) : List Board × List Nat :=
  let bs1 := markPass st.2 v 0 st.1
  let nw := winScan st.2 0 bs1
  (crownPass nw v 0 bs1, st.2 ++ nw)

/-- `Bingo.__post_init__`: replay the draws, returning early as soon as
every board has won. -/
def bingoReplay (st : List Board × List Nat) : List Int → List Board × List Nat
  | [] => st
  | v :: rest =>
      let st' := bingoStep st v
      if st'.2.length = st'.1.length then st' else bingoReplay st' rest

/-- Python string functions are modelled by structural recursion over the
character list of the string, so that every parse evaluates inside the
kernel.  `trimChars` is Python `str.strip()` on characters. -/
def trimChars (s : List Char) : List Char :=
  ((s.dropWhile Char.isWhitespace).reverse.dropWhile Char.isWhitespace).reverse

/-- Python `s.strip()`. -/
def pyStrip (s : String) : String :=
  String.mk (trimChars s.data)

/-- Worker for Python `s.split(sep)` (non-empty `sep`), fuelled by the
length of the string so the recursion is structural: at every step at
least one character is consumed, so the fuel never runs out when it
starts at `s.length`. -/
def splitSepAux (sep : List Char) : Nat → List Char → List Char → List (List Char)
  | _, [], acc => [acc.reverse]
  | 0, s, acc => [acc.reverse ++ s]
  | fuel + 1, c :: rest, acc =>
      if sep.isPrefixOf (c :: rest) then
        acc.reverse :: splitSepAux sep fuel (rest.drop (sep.length - 1)) []
      else splitSepAux sep fuel rest (c :: acc)

/-- Python `s.split(sep)` for a non-empty separator. -/
def pySplit (sep : String) (s : String) : List String :=
  (splitSepAux sep.data s.data.length s.data []).map String.mk

/-- Worker for Python `s.split()`: cut at every whitespace character. -/
def splitWSAux : List Char → List Char → List (List Char)
  | [], acc => [acc.reverse]
  | c :: rest, acc =>
      if c.isWhitespace then acc.reverse :: splitWSAux rest []
      else splitWSAux rest (c :: acc)

/-- Python `s.split()` with no argument: split on whitespace runs,
discarding empty pieces. -/
def pySplitWS (s : String) : List String :=
  ((splitWSAux s.data []).filter (fun t => !t.isEmpty)).map String.mk

/-- Numeric value of a digit string. -/
def digitsVal (s : List Char) : Nat :=
  s.foldl (fun n c => n * 10 + (c.toNat - ('0').toNat)) 0

/-- A non-empty all-digit string parses; anything else does not. -/
def digits? (s : List Char) : Option Nat :=
  if s.isEmpty then none
  else if s.all Char.isDigit then some (digitsVal s) else none

/-- Python `int(s)`: surrounding whitespace is stripped, an optional
sign is allowed, the rest must be a non-empty digit string.  (Digit-group
underscores and non-ASCII digits, which CPython also accepts, are not
modelled; no claim depends on them.) -/
def pyInt? (s : String) : Option Int :=
  match trimChars s.data with
  | '-' :: rest => (digits? rest).map (fun n => -(n : Int))
  | '+' :: rest => (digits? rest).map (fun n => (n : Int))
  | t => (digits? t).map (fun n => (n : Int))

/-- Run a fallible parser over a list, failing as soon as one element
fails (models a Python comprehension whose body may raise). -/
def listTraverse (f : α → Option β) : List α → Option (List β)
  | [] => some []
  | a :: as => do
      let b ← f a
      let bs ← listTraverse f as
      pure (b :: bs)

/-- `np.array` accepts a list of rows only when they all have the same
length (a ragged list raises `ValueError`). -/
def isRectL (rows : List (List α)) : Bool :=
  match rows.map List.length with
  | [] => true
  | n :: rest => rest.all (fun m => m == n)

/-- `Board.from_str`: split the block into lines, split each line on
whitespace, parse every token as an integer, and build the numpy grid
(which requires rectangularity). -/
def Board.from_str (raw : String) : Option Board :=
  match listTraverse (fun line => listTraverse pyInt? (pySplitWS line))
      (pySplit "\n" (pyStrip raw)) with
  | none => none
  | some rows => if isRectL rows then some (Board.mkBoard rows) else none

/-- The whitespace-token grid of a raw board block, before integer
parsing; used to state parse-failure conditions. -/
def tokenGrid (blk : String) : List (List String) :=
  (pySplit "\n" (pyStrip blk)).map pySplitWS

/-- `Bingo` from `day4.py` (after `__post_init__` has run). -/
structure Bingo where
  drawn_numbers : List Int
  boards : List Board
  winning_board_idx : List Nat
deriving DecidableEq, Repr

/-- The dataclass constructor followed by `__post_init__`. -/
def Bingo.mk' (nums : List Int) (boards : List Board) : Bingo :=
  let st := bingoReplay (boards, []) nums
  ⟨nums, st.1, st.2⟩

/-- `Bingo.from_str`: `raw_num, *raw_boards = config.strip().split("\n\n")`,
then the draw line parses as comma-separated integers and each block as a
board.  (`splitOn` never returns `[]`; the first branch is unreachable.) -/
def Bingo.from_str (config : String) : Option Bingo :=
  match pySplit "\n\n" (pyStrip config) with
  | [] => none
  | rawNum :: rawBoards =>
      match listTraverse pyInt? (pySplit "," rawNum) with
      | none => none
      | some nums =>
          match listTraverse Board.from_str rawBoards with
          | none => none
          | some boards => some (Bingo.mk' nums boards)

/-- The first of the three `ParseError` conditions: the draw line of the
input is empty. -/
def drawLineEmpty (config : String) : Prop :=
  (pySplit "\n\n" (pyStrip config)).headD "" = ""

/-- The second `ParseError` condition: some board block is not
rectangular (rows of unequal token counts). -/
def hasRaggedBlock (config : String) : Prop :=
  ∃ blk ∈ (pySplit "\n\n" (pyStrip config)).tail, isRectL (tokenGrid blk) = false

/-- The third `ParseError` condition: some board cell token is not an
integer. -/
def hasBadToken (config : String) : Prop :=
  ∃ blk ∈ (pySplit "\n\n" (pyStrip config)).tail,
    ∃ row ∈ tokenGrid blk, ∃ tok ∈ row, pyInt? tok = none

end Day4

/-! ## Lemmas about the day-5 segment engine -/

namespace Day5

theorem mk'_symm_ltlt (px py qx qy : Int) (hx : px < qx) (hy : py < qy) :
    Segment.mk' ⟨px, py⟩ ⟨qx, qy⟩ = Segment.mk' ⟨qx, qy⟩ ⟨px, py⟩ := by
  simp [Segment.mk', Segment.is_horizontal, Segment.is_vertical,
    Segment.is_diagonal_anti_slash, Segment.is_diagonal_slash,
    hx, hy, hx.asymm, hy.asymm, hx.ne, hy.ne, hx.ne', hy.ne']

theorem mk'_symm_ltgt (px py qx qy : Int) (hx : px < qx) (hy : qy < py) :
    Segment.mk' ⟨px, py⟩ ⟨qx, qy⟩ = Segment.mk' ⟨qx, qy⟩ ⟨px, py⟩ := by
  simp [Segment.mk', Segment.is_horizontal, Segment.is_vertical,
    Segment.is_diagonal_anti_slash, Segment.is_diagonal_slash,
    hx, hy, hx.asymm, hy.asymm, hx.ne, hy.ne, hx.ne', hy.ne']

theorem mk'_symm_lteq (px py qx qy : Int) (hx : px < qx) (hy : py = qy) :
    Segment.mk' ⟨px, py⟩ ⟨qx, qy⟩ = Segment.mk' ⟨qx, qy⟩ ⟨px, py⟩ := by
  subst hy
  simp [Segment.mk', Segment.is_horizontal, Segment.is_vertical,
    Segment.is_diagonal_anti_slash, Segment.is_diagonal_slash,
    hx, hx.asymm, hx.ne, hx.ne']

theorem mk'_symm_eqlt (px py qx qy : Int) (hx : px = qx) (hy : py < qy) :
    Segment.mk' ⟨px, py⟩ ⟨qx, qy⟩ = Segment.mk' ⟨qx, qy⟩ ⟨px, py⟩ := by
  subst hx
  simp [Segment.mk', Segment.is_horizontal, Segment.is_vertical,
    Segment.is_diagonal_anti_slash, Segment.is_diagonal_slash,
    hy, hy.asymm, hy.ne, hy.ne']

/-- `__post_init__` normalisation gives the same segment whichever way
round the two endpoints are passed. -/
theorem mk'_symm (p q : Point) : Segment.mk' p q = Segment.mk' q p := by
  obtain ⟨px, py⟩ := p
  obtain ⟨qx, qy⟩ := q
  rcases lt_trichotomy px qx with hx | hx | hx
  · rcases lt_trichotomy py qy with hy | hy | hy
    · exact mk'_symm_ltlt px py qx qy hx hy
    · exact mk'_symm_lteq px py qx qy hx hy
    · exact mk'_symm_ltgt px py qx qy hx hy
  · rcases lt_trichotomy py qy with hy | hy | hy
    · exact mk'_symm_eqlt px py qx qy hx hy
    · subst hx; subst hy; rfl
    · exact (mk'_symm_eqlt qx qy px py hx.symm hy).symm
  · rcases lt_trichotomy py qy with hy | hy | hy
    · exact (mk'_symm_ltgt qx qy px py hx hy).symm
    · exact (mk'_symm_lteq qx qy px py hx hy.symm).symm
    · exact (mk'_symm_ltlt qx qy px py hx hy).symm

/-- `all_points` never reaches its `raise ValueError` branch: every
segment is classified as horizontal, vertical, anti-slash or slash. -/
theorem all_points_isSome (s : Segment) : s.all_points.isSome := by
  obtain ⟨⟨px, py⟩, ⟨qx, qy⟩⟩ := s
  unfold Segment.all_points
  split_ifs with h1 h2 h3 h4
  · simp
  · simp
  · simp
  · simp
  · exfalso
    simp [Segment.is_horizontal, Segment.is_vertical,
      Segment.is_diagonal_anti_slash, Segment.is_diagonal_slash] at h1 h2 h3 h4
    omega

theorem anti_points (a b : Point) (hx : a.x < b.x) (hyy : a.y < b.y)
    (h45 : b.y - a.y = b.x - a.x) :
    Segment.all_points ⟨a, b⟩ =
      some ((List.range ((b.x - a.x).toNat + 1)).map
        (fun (i : Nat) => ⟨a.x + (i : Int), a.y + (i : Int)⟩)) := by
  have hh : Segment.is_horizontal ⟨a, b⟩ = false := by
    simp [Segment.is_horizontal]; omega
  have hv : Segment.is_vertical ⟨a, b⟩ = false := by
    simp [Segment.is_vertical]; omega
  have ha : Segment.is_diagonal_anti_slash ⟨a, b⟩ = true := by
    simp [Segment.is_diagonal_anti_slash]; omega
  have hnx : (b.x + 1 - a.x).toNat = (b.x - a.x).toNat + 1 := by omega
  have hny : (b.y + 1 - a.y).toNat = (b.x - a.x).toNat + 1 := by omega
  simp only [Segment.all_points, hh, hv, ha, Bool.false_eq_true, if_false, if_true,
    pyRange, hnx, hny]
  rw [List.zip_map', List.map_map]
  rfl

theorem slash_points (a b : Point) (hx : a.x < b.x) (hyy : b.y < a.y)
    (h45 : a.y - b.y = b.x - a.x) :
    Segment.all_points ⟨a, b⟩ =
      some ((List.range ((b.x - a.x).toNat + 1)).map
        (fun (i : Nat) => ⟨a.x + (i : Int), a.y - (i : Int)⟩)) := by
  have hh : Segment.is_horizontal ⟨a, b⟩ = false := by
    simp [Segment.is_horizontal]; omega
  have hv : Segment.is_vertical ⟨a, b⟩ = false := by
    simp [Segment.is_vertical]; omega
  have ha : Segment.is_diagonal_anti_slash ⟨a, b⟩ = false := by
    simp [Segment.is_diagonal_anti_slash]; omega
  have hs : Segment.is_diagonal_slash ⟨a, b⟩ = true := by
    simp [Segment.is_diagonal_slash]; omega
  have hnx : (b.x + 1 - a.x).toNat = (b.x - a.x).toNat + 1 := by omega
  have hny : (a.y - (b.y - 1)).toNat = (b.x - a.x).toNat + 1 := by omega
  simp only [Segment.all_points, hh, hv, ha, hs, Bool.false_eq_true, if_false, if_true,
    pyRange, pyRangeDown, hnx, hny]
  rw [List.zip_map', List.map_map]
  rfl

theorem mk'_anti_lt (p q : Point) (h1 : p.x < q.x) (h2 : p.y < q.y) :
    Segment.mk' p q = ⟨p, q⟩ := by
  simp [Segment.mk', Segment.is_horizontal, Segment.is_vertical,
    Segment.is_diagonal_anti_slash, Segment.is_diagonal_slash,
    h1, h2, h1.asymm, h2.asymm, h1.ne, h2.ne, h1.ne', h2.ne']

theorem mk'_anti_gt (p q : Point) (h1 : q.x < p.x) (h2 : q.y < p.y) :
    Segment.mk' p q = ⟨q, p⟩ := by
  simp [Segment.mk', Segment.is_horizontal, Segment.is_vertical,
    Segment.is_diagonal_anti_slash, Segment.is_diagonal_slash,
    h1, h2, h1.asymm, h2.asymm, h1.ne, h2.ne, h1.ne', h2.ne']

theorem mk'_slash_lt (p q : Point) (h1 : p.x < q.x) (h2 : q.y < p.y) :
    Segment.mk' p q = ⟨p, q⟩ := by
  simp [Segment.mk', Segment.is_horizontal, Segment.is_vertical,
    Segment.is_diagonal_anti_slash, Segment.is_diagonal_slash,
    h1, h2, h1.asymm, h2.asymm, h1.ne, h2.ne, h1.ne', h2.ne']

theorem mk'_slash_gt (p q : Point) (h1 : q.x < p.x) (h2 : p.y < q.y) :
    Segment.mk' p q = ⟨q, p⟩ := by
  simp [Segment.mk', Segment.is_horizontal, Segment.is_vertical,
    Segment.is_diagonal_anti_slash, Segment.is_diagonal_slash,
    h1, h2, h1.asymm, h2.asymm, h1.ne, h2.ne, h1.ne', h2.ne']

/-- Full characterisation of rasterization on 45-degree diagonals. -/
theorem diag_walk (p q : Point)
    (h45 : (q.x - p.x).natAbs = (q.y - p.y).natAbs) (hne : p.x ≠ q.x) :
    diagWalkSpec p q := by
  obtain ⟨px, py⟩ := p
  obtain ⟨qx, qy⟩ := q
  unfold diagWalkSpec
  simp only [] at h45 hne ⊢
  have hyne : py ≠ qy := by
    intro h
    rw [h] at h45
    simp at h45
    omega
  rcases lt_or_gt_of_ne hne with hx | hx
  · rcases lt_or_gt_of_ne hyne with hy | hy
    · -- anti-slash, left-to-right input: no swap
      have hmk : Segment.mk' ⟨px, py⟩ ⟨qx, qy⟩ = ⟨⟨px, py⟩, ⟨qx, qy⟩⟩ :=
        mk'_anti_lt ⟨px, py⟩ ⟨qx, qy⟩ hx hy
      have hn : ((qx - px).natAbs : Nat) = (qx - px).toNat := by omega
      refine ⟨1, (List.range ((qx - px).toNat + 1)).map
          (fun (i : Nat) => ⟨px + (i : Int), py + (i : Int)⟩),
        Or.inl rfl, by omega, ?_, ?_, ?_, ?_⟩
      · rw [hmk]
        exact anti_points ⟨px, py⟩ ⟨qx, qy⟩ hx hy (by simp only []; omega)
      · simp only [List.length_map, List.length_range]; omega
      · rw [hmk, hn]
        apply List.map_congr_left
        intro i _
        simp only [one_mul]
      · rw [hmk]
        simp only [Point.mk.injEq, one_mul, true_and, and_true]
        omega
    · -- slash, left-to-right input: no swap
      have hmk : Segment.mk' ⟨px, py⟩ ⟨qx, qy⟩ = ⟨⟨px, py⟩, ⟨qx, qy⟩⟩ :=
        mk'_slash_lt ⟨px, py⟩ ⟨qx, qy⟩ hx hy
      refine ⟨-1, (List.range ((qx - px).toNat + 1)).map
          (fun (i : Nat) => ⟨px + (i : Int), py - (i : Int)⟩),
        Or.inr rfl, by omega, ?_, ?_, ?_, ?_⟩
      · rw [hmk]
        exact slash_points ⟨px, py⟩ ⟨qx, qy⟩ hx hy (by simp only []; omega)
      · simp only [List.length_map, List.length_range]; omega
      · rw [hmk, show ((qx - px).natAbs : Nat) = (qx - px).toNat from by omega]
        apply List.map_congr_left
        intro i _
        simp only [Point.mk.injEq, neg_one_mul, true_and, and_true]
        omega
      · rw [hmk]
        simp only [Point.mk.injEq, neg_one_mul, true_and, and_true]
        omega
  · rcases lt_or_gt_of_ne hyne with hy | hy
    · -- slash, right-to-left input: swapped to start at the second point
      have hmk : Segment.mk' ⟨px, py⟩ ⟨qx, qy⟩ = ⟨⟨qx, qy⟩, ⟨px, py⟩⟩ :=
        mk'_slash_gt ⟨px, py⟩ ⟨qx, qy⟩ hx hy
      refine ⟨-1, (List.range ((px - qx).toNat + 1)).map
          (fun (i : Nat) => ⟨qx + (i : Int), qy - (i : Int)⟩),
        Or.inr rfl, by omega, ?_, ?_, ?_, ?_⟩
      · rw [hmk]
        exact slash_points ⟨qx, qy⟩ ⟨px, py⟩ hx hy (by simp only []; omega)
      · simp only [List.length_map, List.length_range]; omega
      · rw [hmk, show ((qx - px).natAbs : Nat) = (px - qx).toNat from by omega]
        apply List.map_congr_left
        intro i _
        simp only [Point.mk.injEq, neg_one_mul, true_and, and_true]
        omega
      · rw [hmk]
        simp only [Point.mk.injEq, neg_one_mul, true_and, and_true]
        omega
    · -- anti-slash, right-to-left input: swapped to start at the second point
      have hmk : Segment.mk' ⟨px, py⟩ ⟨qx, qy⟩ = ⟨⟨qx, qy⟩, ⟨px, py⟩⟩ :=
        mk'_anti_gt ⟨px, py⟩ ⟨qx, qy⟩ hx hy
      refine ⟨1, (List.range ((px - qx).toNat + 1)).map
          (fun (i : Nat) => ⟨qx + (i : Int), qy + (i : Int)⟩),
        Or.inl rfl, by omega, ?_, ?_, ?_, ?_⟩
      · rw [hmk]
        exact anti_points ⟨qx, qy⟩ ⟨px, py⟩ hx hy (by simp only []; omega)
      · simp only [List.length_map, List.length_range]; omega
      · rw [hmk, show ((qx - px).natAbs : Nat) = (px - qx).toNat from by omega]
        apply List.map_congr_left
        intro i _
        simp only [one_mul]
      · rw [hmk]
        simp only [Point.mk.injEq, one_mul, true_and, and_true]
        omega

end Day5

namespace Day5

/-- Since `all_points` never fails, neither does rasterizing a list of
segments; the result is the concatenation of the per-segment points. -/
theorem segListPoints_eq (l : List Segment) :
    segListPoints l = some (l.flatMap (fun s => s.all_points.getD [])) := by
  induction l with
  | nil => rfl
  | cons s rest ih =>
      obtain ⟨ps, hps⟩ := Option.isSome_iff_exists.mp (all_points_isSome s)
      simp [segListPoints, hps, ih, List.flatMap_cons]

theorem flatMap_sublist {α β : Type} (f : α → List β) {l₁ l₂ : List α}
    (h : List.Sublist l₁ l₂) : List.Sublist (l₁.flatMap f) (l₂.flatMap f) := by
  induction h with
  | slnil => simp
  | cons a h ih =>
      simp only [List.flatMap_cons]
      exact ih.trans (List.sublist_append_right _ _)
  | cons₂ a h ih =>
      simp only [List.flatMap_cons]
      exact ih.append_left (f a)

/-- The number of points covered at least twice only grows when the
multiset of rasterized points grows. -/
theorem nbOverlapsOf_mono {l₁ l₂ : List Point} (h : List.Sublist l₁ l₂) :
    nbOverlapsOf l₁ ≤ nbOverlapsOf l₂ := by
  apply Finset.card_le_card
  intro p hp
  simp only [Finset.mem_filter, List.mem_toFinset] at hp ⊢
  obtain ⟨hmem, hcnt⟩ := hp
  have hle := h.count_le p
  exact ⟨List.count_pos_iff.mp (by omega), by omega⟩

end Day5

namespace Day5

theorem mk'_h_le (p q : Point) (h2 : p.y = q.y) (h1 : p.x ≤ q.x) :
    Segment.mk' p q = ⟨p, q⟩ := by
  obtain ⟨px, py⟩ := p
  obtain ⟨qx, qy⟩ := q
  simp only [] at h1 h2
  subst h2
  simp [Segment.mk', Segment.is_horizontal, Segment.is_vertical,
    Segment.is_diagonal_anti_slash, Segment.is_diagonal_slash, h1.not_lt]

theorem mk'_h_gt (p q : Point) (h2 : p.y = q.y) (h1 : q.x < p.x) :
    Segment.mk' p q = ⟨q, p⟩ := by
  obtain ⟨px, py⟩ := p
  obtain ⟨qx, qy⟩ := q
  simp only [] at h1 h2
  subst h2
  simp [Segment.mk', Segment.is_horizontal, Segment.is_vertical,
    Segment.is_diagonal_anti_slash, Segment.is_diagonal_slash, h1]

theorem mk'_v_le (p q : Point) (h1 : p.x = q.x) (h2 : p.y ≤ q.y) :
    Segment.mk' p q = ⟨p, q⟩ := by
  obtain ⟨px, py⟩ := p
  obtain ⟨qx, qy⟩ := q
  simp only [] at h1 h2
  subst h1
  simp [Segment.mk', Segment.is_horizontal, Segment.is_vertical,
    Segment.is_diagonal_anti_slash, Segment.is_diagonal_slash, h2.not_lt]

theorem mk'_v_gt (p q : Point) (h1 : p.x = q.x) (h2 : q.y < p.y) :
    Segment.mk' p q = ⟨q, p⟩ := by
  obtain ⟨px, py⟩ := p
  obtain ⟨qx, qy⟩ := q
  simp only [] at h1 h2
  subst h1
  simp [Segment.mk', Segment.is_horizontal, Segment.is_vertical,
    Segment.is_diagonal_anti_slash, Segment.is_diagonal_slash, h2, h2.ne']

end Day5

/-! ## Day-5 claims -/

namespace Day5

/-- C3: the claim says a segment that is neither horizontal, nor vertical,
nor an exact 45-degree diagonal makes `all_points` fail fast with an
`UnsupportedGeometry` error.  The code does the opposite: the sign-based
classifiers accept every non-axis segment as a diagonal, the `raise`
branch is unreachable (second conjunct), and the sloped segment
`(0,0) -> (1,5)` rasterizes to the two points `(0,0)` and `(1,1)` instead
of failing (first conjunct). -/
theorem C3_unsupported_geometry_never_raised :
    (Segment.mk' ⟨0, 0⟩ ⟨1, 5⟩).all_points = some [⟨0, 0⟩, ⟨1, 1⟩] ∧
    ∀ s : Segment, s.all_points.isSome :=
  ⟨by decide, all_points_isSome⟩

/-- C4: for every segment that is horizontal (equal `y`), vertical
(equal `x`) or 45-degree diagonal (`|dx| = |dy|`), rasterizing the
segment built from the two endpoints and the one built from the swapped
endpoints yields the same set of points. -/
theorem C4_reverse_same_point_set (p q : Point)
    (h : p.y = q.y ∨ p.x = q.x ∨ (q.x - p.x).natAbs = (q.y - p.y).natAbs) :
    ((Segment.mk' p q).all_points).map List.toFinset =
      ((Segment.mk' q p).all_points).map List.toFinset := by
  rw [mk'_symm]

/-- Witness for C4 at the horizontal segment `(1,1) -> (3,1)`. -/
theorem C4_witness :
    ((⟨1, 1⟩ : Point).y = (⟨3, 1⟩ : Point).y ∨ (⟨1, 1⟩ : Point).x = (⟨3, 1⟩ : Point).x ∨
      ((⟨3, 1⟩ : Point).x - (⟨1, 1⟩ : Point).x).natAbs =
        ((⟨3, 1⟩ : Point).y - (⟨1, 1⟩ : Point).y).natAbs) ∧
    ((Segment.mk' ⟨1, 1⟩ ⟨3, 1⟩).all_points).map List.toFinset =
      ((Segment.mk' ⟨3, 1⟩ ⟨1, 1⟩).all_points).map List.toFinset :=
  ⟨Or.inl rfl, C4_reverse_same_point_set ⟨1, 1⟩ ⟨3, 1⟩ (Or.inl rfl)⟩

/-- C5: every 45-degree diagonal rasterizes to exactly `|dx| + 1` points,
walking from the segment's first endpoint to its second with `x` stepping
by one and `y` stepping in lockstep by the slope sign (`diagWalkSpec`);
and the segment given as `(9,7) -> (7,9)` rasterizes to the set of points
`{(9,7), (8,8), (7,9)}`. -/
theorem C5_diagonal_rasterization :
    (∀ p q : Point, (q.x - p.x).natAbs = (q.y - p.y).natAbs → p.x ≠ q.x →
      diagWalkSpec p q) ∧
    ((Segment.mk' ⟨9, 7⟩ ⟨7, 9⟩).all_points).map List.toFinset =
      some ({⟨9, 7⟩, ⟨8, 8⟩, ⟨7, 9⟩} : Finset Point) := by
  constructor
  · exact fun p q h45 hne => diag_walk p q h45 hne
  · have h : (Segment.mk' ⟨9, 7⟩ ⟨7, 9⟩).all_points =
        some [⟨7, 9⟩, ⟨8, 8⟩, ⟨9, 7⟩] := by decide
    rw [h, Option.map_some']
    congr 1
    simp [Finset.ext_iff]
    tauto

/-- Witness for C5 at the diagonal `(0,0) -> (2,2)`. -/
theorem C5_witness :
    (((⟨2, 2⟩ : Point).x - (⟨0, 0⟩ : Point).x).natAbs =
        ((⟨2, 2⟩ : Point).y - (⟨0, 0⟩ : Point).y).natAbs ∧
      (⟨0, 0⟩ : Point).x ≠ (⟨2, 2⟩ : Point).x) ∧
    diagWalkSpec ⟨0, 0⟩ ⟨2, 2⟩ :=
  ⟨⟨by decide, by decide⟩,
    C5_diagonal_rasterization.1 ⟨0, 0⟩ ⟨2, 2⟩ (by decide) (by decide)⟩

/-- C6: for every collection of segments, the overlap count over all
segments dominates the overlap count over the axis-aligned segments only
(both succeed, and `nb_overlaps_hv <= nb_overlaps_full`). -/
theorem C6_full_overlaps_dominate (segs : List Segment) :
    ∃ a b, (HydrothermalVentsMap.mk segs).nb_overlaps_full = some a ∧
      (HydrothermalVentsMap.mk segs).nb_overlaps_hv = some b ∧ b ≤ a := by
  refine ⟨nbOverlapsOf (segs.flatMap (fun s => s.all_points.getD [])),
    nbOverlapsOf ((segs.filter (fun s => s.is_vertical || s.is_horizontal)).flatMap
      (fun s => s.all_points.getD [])), ?_, ?_, ?_⟩
  · simp [HydrothermalVentsMap.nb_overlaps_full, HydrothermalVentsMap.all_points,
      segListPoints_eq]
  · simp [HydrothermalVentsMap.nb_overlaps_hv, HydrothermalVentsMap.all_points_hv,
      HydrothermalVentsMap.h_or_v_segments, segListPoints_eq]
  · exact nbOverlapsOf_mono (flatMap_sublist _ (List.filter_sublist _))

/-- C10: every constructed segment is normalised: a horizontal or
45-degree-diagonal segment has `_from.x <= _to.x`, and a vertical segment
has `_from.y <= _to.y`.  (Segments are values; nothing mutates them after
`__post_init__`.) -/
theorem C10_normalized_orientation (p q : Point) :
    (((Segment.mk' p q).is_horizontal = true ∨
        (((Segment.mk' p q)._to.x - (Segment.mk' p q)._from.x).natAbs =
            ((Segment.mk' p q)._to.y - (Segment.mk' p q)._from.y).natAbs ∧
          (Segment.mk' p q).is_horizontal = false ∧
          (Segment.mk' p q).is_vertical = false)) →
      (Segment.mk' p q)._from.x ≤ (Segment.mk' p q)._to.x) ∧
    ((Segment.mk' p q).is_vertical = true →
      (Segment.mk' p q)._from.y ≤ (Segment.mk' p q)._to.y) := by
  obtain ⟨px, py⟩ := p
  obtain ⟨qx, qy⟩ := q
  rcases lt_trichotomy px qx with hx | hx | hx
  · rcases lt_trichotomy py qy with hy | hy | hy
    · rw [mk'_anti_lt ⟨px, py⟩ ⟨qx, qy⟩ hx hy]
      simp [Segment.is_horizontal, Segment.is_vertical]
      omega
    · rw [mk'_h_le ⟨px, py⟩ ⟨qx, qy⟩ hy hx.le]
      simp [Segment.is_horizontal, Segment.is_vertical]
      omega
    · rw [mk'_slash_lt ⟨px, py⟩ ⟨qx, qy⟩ hx hy]
      simp [Segment.is_horizontal, Segment.is_vertical]
      omega
  · rcases lt_trichotomy py qy with hy | hy | hy
    · rw [mk'_v_le ⟨px, py⟩ ⟨qx, qy⟩ hx hy.le]
      simp [Segment.is_horizontal, Segment.is_vertical]
      omega
    · rw [mk'_v_le ⟨px, py⟩ ⟨qx, qy⟩ hx hy.le]
      simp [Segment.is_horizontal, Segment.is_vertical]
      omega
    · rw [mk'_v_gt ⟨px, py⟩ ⟨qx, qy⟩ hx hy]
      simp [Segment.is_horizontal, Segment.is_vertical]
      omega
  · rcases lt_trichotomy py qy with hy | hy | hy
    · rw [mk'_slash_gt ⟨px, py⟩ ⟨qx, qy⟩ hx hy]
      simp [Segment.is_horizontal, Segment.is_vertical]
      omega
    · rw [mk'_h_gt ⟨px, py⟩ ⟨qx, qy⟩ hy hx]
      simp [Segment.is_horizontal, Segment.is_vertical]
      omega
    · rw [mk'_anti_gt ⟨px, py⟩ ⟨qx, qy⟩ hx hy]
      simp [Segment.is_horizontal, Segment.is_vertical]
      omega

/-- Witness for C10 at the degenerate segment `(4,4) -> (4,4)`, which is
both horizontal and vertical, so both hypotheses are discharged. -/
theorem C10_witness :
    ((Segment.mk' ⟨4, 4⟩ ⟨4, 4⟩).is_horizontal = true ∧
      (Segment.mk' ⟨4, 4⟩ ⟨4, 4⟩).is_vertical = true) ∧
    (Segment.mk' ⟨4, 4⟩ ⟨4, 4⟩)._from.x ≤ (Segment.mk' ⟨4, 4⟩ ⟨4, 4⟩)._to.x ∧
    (Segment.mk' ⟨4, 4⟩ ⟨4, 4⟩)._from.y ≤ (Segment.mk' ⟨4, 4⟩ ⟨4, 4⟩)._to.y :=
  ⟨⟨by decide, by decide⟩,
    (C10_normalized_orientation ⟨4, 4⟩ ⟨4, 4⟩).1 (Or.inl (by decide)),
    (C10_normalized_orientation ⟨4, 4⟩ ⟨4, 4⟩).2 (by decide)⟩

end Day5

/-! ## Day-4 lemmas and claims -/

namespace Day4

theorem setCell_shape (m : List (List Bool)) (r c : Nat) :
    (setCell m r c).map List.length = m.map List.length := by
  induction m generalizing r with
  | nil => rfl
  | cons row rest ih =>
      cases r with
      | zero => simp [setCell]
      | succ r => simp [setCell, ih]

theorem markNumber_numbers (b : Board) (v : Int) :
    (b.markNumber v).numbers = b.numbers := by
  unfold Board.markNumber
  cases findCell v b.numbers <;> rfl

theorem markNumber_winning (b : Board) (v : Int) :
    (b.markNumber v).winning_number = b.winning_number := by
  unfold Board.markNumber
  cases findCell v b.numbers <;> rfl

theorem markNumber_shape (b : Board) (v : Int) :
    (b.markNumber v).marked.map List.length = b.marked.map List.length := by
  unfold Board.markNumber
  cases findCell v b.numbers with
  | none => rfl
  | some idx => simp [setCell_shape]

theorem rowMasked_add (ns : List Int) (ms : List Bool) (h : ns.length = ms.length) :
    rowMasked false ns ms + rowMasked true ns ms = ns.sum := by
  induction ns generalizing ms with
  | nil => simp [rowMasked]
  | cons n ns ih =>
      cases ms with
      | nil => simp at h
      | cons m ms =>
          simp only [List.length_cons, Nat.succ.injEq] at h
          cases m <;> simp [rowMasked, List.sum_cons, ← ih ms h] <;> ring

theorem maskedSum_add (nums : List (List Int)) (mask : List (List Bool))
    (h : nums.map List.length = mask.map List.length) :
    maskedSum false nums mask + maskedSum true nums mask = totalSum nums := by
  induction nums generalizing mask with
  | nil => simp [maskedSum, totalSum]
  | cons nr nrest ih =>
      cases mask with
      | nil => simp at h
      | cons mr mrest =>
          simp only [List.map_cons, List.cons.injEq] at h
          simp only [maskedSum, totalSum, List.map_cons, List.sum_cons]
          have := rowMasked_add nr mr h.1
          have := ih mrest h.2
          simp only [totalSum] at this
          omega

/-- C7: after any sequence of markings of a freshly parsed board, the
board's numbers are unchanged and the unmarked sum plus the marked sum
equals the total sum of all cells. -/
theorem C7_unmarked_sum_invariant (numbers : List (List Int)) (draws : List Int) :
    (draws.foldl Board.markNumber (Board.mkBoard numbers)).numbers = numbers ∧
    (draws.foldl Board.markNumber (Board.mkBoard numbers)).unmarked_sum +
      (draws.foldl Board.markNumber (Board.mkBoard numbers)).marked_sum =
        totalSum numbers := by
  have key : ∀ (ds : List Int) (b : Board),
      (ds.foldl Board.markNumber b).numbers = b.numbers ∧
      (ds.foldl Board.markNumber b).marked.map List.length =
        b.marked.map List.length := by
    intro ds
    induction ds with
    | nil => intro b; exact ⟨rfl, rfl⟩
    | cons d ds ih =>
        intro b
        obtain ⟨h1, h2⟩ := ih (b.markNumber d)
        simp only [List.foldl_cons]
        exact ⟨h1.trans (markNumber_numbers b d), h2.trans (markNumber_shape b d)⟩
  obtain ⟨h1, h2⟩ := key draws (Board.mkBoard numbers)
  have hshape0 : (Board.mkBoard numbers).marked.map List.length =
      numbers.map List.length := by
    simp [Board.mkBoard, List.map_map, Function.comp]
  refine ⟨h1.trans rfl, ?_⟩
  have hshape : (draws.foldl Board.markNumber (Board.mkBoard numbers)).numbers.map
      List.length = (draws.foldl Board.markNumber (Board.mkBoard numbers)).marked.map
        List.length := by
    rw [h1, h2, hshape0]
    rfl
  have := maskedSum_add (draws.foldl Board.markNumber (Board.mkBoard numbers)).numbers
    (draws.foldl Board.markNumber (Board.mkBoard numbers)).marked hshape
  simp only [Board.unmarked_sum, Board.marked_sum]
  rw [this, h1]
  rfl

end Day4

namespace Day4

theorem contains_iff (l : List Nat) (a : Nat) : l.contains a = true ↔ a ∈ l := by
  simp [List.contains]

theorem markPass_get? (w : List Nat) (v : Int) :
    ∀ (l : List Board) (k j : Nat),
      (markPass w v k l).get? j =
        (l.get? j).map (fun b => if w.contains (k + j) then b else b.markNumber v) := by
  intro l
  induction l with
  | nil => intro k j; simp [markPass]
  | cons b bs ih =>
      intro k j
      cases j with
      | zero => simp [markPass]
      | succ j =>
          simp only [markPass, List.get?_cons_succ, ih (k + 1) j,
            show k + 1 + j = k + (j + 1) from by omega]

theorem crownPass_get? (nw : List Nat) (v : Int) :
    ∀ (l : List Board) (k j : Nat),
      (crownPass nw v k l).get? j =
        (l.get? j).map (fun b =>
          if nw.contains (k + j) then { b with winning_number := some v } else b) := by
  intro l
  induction l with
  | nil => intro k j; simp [crownPass]
  | cons b bs ih =>
      intro k j
      cases j with
      | zero => simp [crownPass]
      | succ j =>
          simp only [crownPass, List.get?_cons_succ, ih (k + 1) j,
            show k + 1 + j = k + (j + 1) from by omega]

theorem markPass_length (w : List Nat) (v : Int) :
    ∀ (l : List Board) (k : Nat), (markPass w v k l).length = l.length := by
  intro l
  induction l with
  | nil => intro k; rfl
  | cons b bs ih => intro k; simp [markPass, ih (k + 1)]

theorem crownPass_length (nw : List Nat) (v : Int) :
    ∀ (l : List Board) (k : Nat), (crownPass nw v k l).length = l.length := by
  intro l
  induction l with
  | nil => intro k; rfl
  | cons b bs ih => intro k; simp [crownPass, ih (k + 1)]

theorem winScan_mem (w : List Nat) :
    ∀ (l : List Board) (k j : Nat),
      j ∈ winScan w k l ↔
        ∃ m b, j = k + m ∧ l.get? m = some b ∧ w.contains j = false ∧
          b.do_we_have_a_winner = true := by
  intro l
  induction l with
  | nil =>
      intro k j
      simp [winScan]
  | cons b bs ih =>
      intro k j
      simp only [winScan, List.mem_append]
      constructor
      · intro h
        rcases h with h | h
        · by_cases hc : (!w.contains k && b.do_we_have_a_winner) = true
          · rw [if_pos hc] at h
            simp only [List.mem_singleton] at h
            subst h
            simp only [Bool.and_eq_true, Bool.not_eq_true'] at hc
            exact ⟨0, b, by omega, rfl, hc.1, hc.2⟩
          · rw [if_neg hc] at h
            simp at h
        · obtain ⟨m, b', hm, hg, hw, hwin⟩ := (ih (k + 1) j).mp h
          exact ⟨m + 1, b', by omega, by simpa using hg, hw, hwin⟩
      · rintro ⟨m, b', hm, hg, hw, hwin⟩
        cases m with
        | zero =>
            left
            simp only [List.get?_cons_zero, Option.some.injEq] at hg
            subst hg
            have hj : j = k := by omega
            subst hj
            rw [if_pos (by rw [hw, hwin]; rfl)]
            simp
        | succ m =>
            right
            refine (ih (k + 1) j).mpr ⟨m, b', by omega, by simpa using hg, hw, hwin⟩

theorem winScan_lb (w : List Nat) :
    ∀ (l : List Board) (k : Nat), ∀ j ∈ winScan w k l, k ≤ j := by
  intro l
  induction l with
  | nil => intro k j h; simp [winScan] at h
  | cons b bs ih =>
      intro k j h
      simp only [winScan, List.mem_append] at h
      rcases h with h | h
      · split_ifs at h with hc
        · simp only [List.mem_singleton] at h; omega
        · simp at h
      · have := ih (k + 1) j h
        omega

theorem winScan_pairwise (w : List Nat) :
    ∀ (l : List Board) (k : Nat), (winScan w k l).Pairwise (· < ·) := by
  intro l
  induction l with
  | nil => intro k; simp [winScan]
  | cons b bs ih =>
      intro k
      simp only [winScan]
      rw [List.pairwise_append]
      refine ⟨?_, ih (k + 1), ?_⟩
      · split_ifs <;> simp
      · intro a ha b' hb'
        have hub := winScan_lb w bs (k + 1) b' hb'
        split_ifs at ha with hc
        · simp only [List.mem_singleton] at ha; omega
        · simp at ha

end Day4

namespace Day4

theorem contains_eq_false (l : List Nat) (a : Nat) : l.contains a = false ↔ a ∉ l := by
  simp [List.contains]

theorem bingoStep_won_get? (bs : List Board) (w : List Nat) (v : Int) (i : Nat)
    (hi : i ∈ w) : (bingoStep (bs, w) v).1.get? i = bs.get? i := by
  have hwc : w.contains i = true := (contains_iff w i).mpr hi
  show (crownPass (winScan w 0 (markPass w v 0 bs)) v 0 (markPass w v 0 bs)).get? i
    = bs.get? i
  rw [crownPass_get?, markPass_get?]
  have hnmem : i ∉ winScan w 0 (markPass w v 0 bs) := by
    intro hmem
    obtain ⟨m, b'', hm, hg2, hwf, hwin2⟩ :=
      (winScan_mem w (markPass w v 0 bs) 0 i).mp hmem
    rw [hwc] at hwf
    simp at hwf
  cases bs.get? i <;> simp [hi, hnmem]

theorem bingoStep_notWon_get? (bs : List Board) (w : List Nat) (v : Int) (i : Nat)
    (hi : i ∉ w) :
    (bingoStep (bs, w) v).1.get? i = (bs.get? i).map (fun b =>
      if (b.markNumber v).do_we_have_a_winner
      then { b.markNumber v with winning_number := some v }
      else b.markNumber v) := by
  have hwc : w.contains i = false := (contains_eq_false w i).mpr hi
  show (crownPass (winScan w 0 (markPass w v 0 bs)) v 0 (markPass w v 0 bs)).get? i = _
  rw [crownPass_get?, markPass_get?]
  cases hg : bs.get? i with
  | none => rfl
  | some b =>
      by_cases hwin : (b.markNumber v).do_we_have_a_winner = true
      · have hmem : i ∈ winScan w 0 (markPass w v 0 bs) := by
          apply (winScan_mem w (markPass w v 0 bs) 0 i).mpr
          refine ⟨i, b.markNumber v, by omega, ?_, hwc, hwin⟩
          rw [markPass_get?, hg]
          simp [hi]
        simp [hi, hmem, hwin]
      · have hnmem : i ∉ winScan w 0 (markPass w v 0 bs) := by
          intro hmem
          obtain ⟨m, b'', hm, hg2, hwf, hwin2⟩ :=
            (winScan_mem w (markPass w v 0 bs) 0 i).mp hmem
          have hmi : m = i := by omega
          rw [hmi, markPass_get?, hg] at hg2
          simp [hi] at hg2
          rw [← hg2] at hwin2
          exact hwin hwin2
        simp [hi, hnmem, hwin]

theorem bingoStep_snd (bs : List Board) (w : List Nat) (v : Int) :
    (bingoStep (bs, w) v).2 = w ++ winScan w 0 (markPass w v 0 bs) := rfl

theorem bingoStep_newWin_iff (bs : List Board) (w : List Nat) (v : Int) (i : Nat)
    (hi : i ∉ w) :
    i ∈ (bingoStep (bs, w) v).2 ↔
      ∃ b, bs.get? i = some b ∧ (b.markNumber v).do_we_have_a_winner = true := by
  rw [bingoStep_snd, List.mem_append]
  have hwc : w.contains i = false := (contains_eq_false w i).mpr hi
  constructor
  · intro h
    rcases h with h | h
    · exact absurd h hi
    · obtain ⟨m, b'', hm, hg2, hwf, hwin2⟩ :=
        (winScan_mem w (markPass w v 0 bs) 0 i).mp h
      have hmi : m = i := by omega
      rw [hmi, markPass_get?] at hg2
      cases hg : bs.get? i with
      | none => rw [hg] at hg2; simp at hg2
      | some b =>
          rw [hg] at hg2
          simp [hi] at hg2
          exact ⟨b, rfl, by rw [hg2]; exact hwin2⟩
  · rintro ⟨b, hg, hwin⟩
    right
    apply (winScan_mem w (markPass w v 0 bs) 0 i).mpr
    refine ⟨i, b.markNumber v, by omega, ?_, hwc, hwin⟩
    rw [markPass_get?, hg]
    simp [hi]

end Day4

namespace Day4

theorem winner_iff_hasFullLine (b : Board) :
    b.do_we_have_a_winner = true ↔ hasFullLine b.marked := by
  simp [Board.do_we_have_a_winner, hasFullLine, List.any_eq_true, List.all_eq_true]

theorem bingoReplay_frame :
    ∀ (draws : List Int) (bs : List Board) (w : List Nat) (i : Nat), i ∈ w →
      (bingoReplay (bs, w) draws).1.get? i = bs.get? i ∧
      i ∈ (bingoReplay (bs, w) draws).2 := by
  intro draws
  induction draws with
  | nil => intro bs w i hi; exact ⟨rfl, hi⟩
  | cons v rest ih =>
      intro bs w i hi
      have h1 := bingoStep_won_get? bs w v i hi
      have hi' : i ∈ (bingoStep (bs, w) v).2 := by
        rw [bingoStep_snd]
        exact List.mem_append_left _ hi
      show (if (bingoStep (bs, w) v).2.length = (bingoStep (bs, w) v).1.length
          then bingoStep (bs, w) v
          else bingoReplay (bingoStep (bs, w) v) rest).1.get? i = bs.get? i ∧
        i ∈ (if (bingoStep (bs, w) v).2.length = (bingoStep (bs, w) v).1.length
          then bingoStep (bs, w) v
          else bingoReplay (bingoStep (bs, w) v) rest).2
      split_ifs with hstop
      · exact ⟨h1, hi'⟩
      · obtain ⟨g1, g2⟩ := ih (bingoStep (bs, w) v).1 (bingoStep (bs, w) v).2 i hi'
        exact ⟨g1.trans h1, g2⟩

end Day4

namespace Day4

theorem listTraverse_none {α β : Type} (f : α → Option β) {l : List α} {x : α}
    (hx : x ∈ l) (hf : f x = none) : listTraverse f l = none := by
  induction l with
  | nil => cases hx
  | cons a as ih =>
      rcases List.mem_cons.mp hx with h | h
      · subst h
        simp [listTraverse, hf]
      · cases hfa : f a with
        | none => simp [listTraverse, hfa]
        | some b => simp [listTraverse, hfa, ih h]

theorem listTraverse_forall₂ {α β : Type} {f : α → Option β} :
    ∀ {l : List α} {r : List β}, listTraverse f l = some r →
      List.Forall₂ (fun a b => f a = some b) l r := by
  intro l
  induction l with
  | nil =>
      intro r h
      simp only [listTraverse, Option.some.injEq] at h
      subst h
      exact List.Forall₂.nil
  | cons a as ih =>
      intro r h
      cases hfa : f a with
      | none => rw [listTraverse, hfa] at h; simp at h
      | some b =>
          cases hrest : listTraverse f as with
          | none => rw [listTraverse, hfa, hrest] at h; simp at h
          | some bs =>
              rw [listTraverse, hfa, hrest] at h
              simp at h
              subst h
              exact List.Forall₂.cons hfa (ih hrest)

theorem isRectL_congr {α β : Type} {rows₁ : List (List α)} {rows₂ : List (List β)}
    (h : rows₁.map List.length = rows₂.map List.length) :
    isRectL rows₁ = isRectL rows₂ := by
  unfold isRectL
  rw [h]

theorem rows_lengths_eq {lines : List String} {rows : List (List Int)}
    (h : List.Forall₂ (fun a b => listTraverse pyInt? (pySplitWS a) = some b) lines rows) :
    rows.map List.length = lines.map (fun a => (pySplitWS a).length) := by
  induction h with
  | nil => rfl
  | cons hab _ ih =>
      simp only [List.map_cons, ih, List.cons.injEq, and_true]
      exact ((listTraverse_forall₂ hab).length_eq).symm

theorem Board_from_str_ragged {blk : String} (hrect : isRectL (tokenGrid blk) = false) :
    Board.from_str blk = none := by
  unfold Board.from_str
  cases htrav : listTraverse (fun line => listTraverse pyInt? (pySplitWS line))
      (pySplit "\n" (pyStrip blk)) with
  | none => rfl
  | some rows =>
      have hfa := listTraverse_forall₂ htrav
      have hlen : rows.map List.length = (tokenGrid blk).map List.length := by
        unfold tokenGrid
        rw [List.map_map]
        exact rows_lengths_eq hfa
      show (if isRectL rows = true then some (Board.mkBoard rows) else none) = none
      rw [isRectL_congr hlen, hrect]
      simp

theorem Board_from_str_badToken {blk : String}
    (h : ∃ row ∈ tokenGrid blk, ∃ tok ∈ row, pyInt? tok = none) :
    Board.from_str blk = none := by
  obtain ⟨row, hrow, tok, htok, hbad⟩ := h
  unfold tokenGrid at hrow
  obtain ⟨line, hline, hrow'⟩ := List.mem_map.mp hrow
  have hinner : listTraverse pyInt? (pySplitWS line) = none := by
    apply listTraverse_none pyInt? _ hbad
    rw [hrow']
    exact htok
  unfold Board.from_str
  rw [listTraverse_none _ hline hinner]

theorem Bingo_from_str_cons {config rawNum : String} {rawBoards : List String}
    (h : pySplit "\n\n" (pyStrip config) = rawNum :: rawBoards) :
    Bingo.from_str config =
      (match listTraverse pyInt? (pySplit "," rawNum) with
      | none => none
      | some nums =>
          match listTraverse Board.from_str rawBoards with
          | none => none
          | some boards => some (Bingo.mk' nums boards)) := by
  unfold Bingo.from_str
  rw [h]

end Day4

/-! ## Day-4 claims -/

namespace Day4

/-- C1: the claim says `score()` fails exactly when the board never won,
and in particular never fails on a board that won.  The code's
`assert self.winning_number` tests Python truthiness, so a board that won
on the draw value `0` (here: the single-cell board `[[0]]` after the
draw sequence `[0]`) is a winning board with `winning_number = 0` whose
`score()` nevertheless raises `AssertionError`, contradicting the
assertion's own message ("Score can only be computed for a winning
board"). -/
theorem C1_zero_winning_draw_score_fails :
    ∃ b : Board, (Bingo.mk' [0] [Board.mkBoard [[0]]]).boards = [b] ∧
      b.winning_number = some 0 ∧ b.do_we_have_a_winner = true ∧
      b.unmarked_sum = 0 ∧ b.score = none :=
  ⟨⟨[[0]], [[true]], some 0⟩, by decide⟩

/-- C2: one replay step for draw `v` from an arbitrary replay state
`(bs, w)`: (a) boards recorded as won are untouched; (b) every other
board is marked for `v` and then crowned with winning value `v` exactly
when marking completed it; (c) a not-yet-won board ends up recorded as
won with value `v` iff some full row or column of its marked grid is
entirely marked (`hasFullLine`; diagonals never count); (d) the new
winners are appended to `w` in strictly increasing board-input order;
(e) the replay stops as soon as every board has won. -/
theorem C2_replay_step (bs : List Board) (w : List Nat) (v : Int) (rest : List Int) :
    (∀ i, i ∈ w → (bingoStep (bs, w) v).1.get? i = bs.get? i) ∧
    (∀ i, i ∉ w → (bingoStep (bs, w) v).1.get? i = (bs.get? i).map (fun b =>
      if (b.markNumber v).do_we_have_a_winner
      then { b.markNumber v with winning_number := some v }
      else b.markNumber v)) ∧
    (∀ i b', i ∉ w → (bingoStep (bs, w) v).1.get? i = some b' →
      ((i ∈ (bingoStep (bs, w) v).2 ∧ b'.winning_number = some v) ↔
        hasFullLine b'.marked)) ∧
    (∃ nw, (bingoStep (bs, w) v).2 = w ++ nw ∧ nw.Pairwise (· < ·)) ∧
    ((bingoStep (bs, w) v).2.length = (bingoStep (bs, w) v).1.length →
      bingoReplay (bs, w) (v :: rest) = bingoStep (bs, w) v) := by
  refine ⟨fun i hi => bingoStep_won_get? bs w v i hi,
    fun i hi => bingoStep_notWon_get? bs w v i hi, ?_, ?_, ?_⟩
  · intro i b' hi hg
    rw [bingoStep_notWon_get? bs w v i hi] at hg
    cases hgb : bs.get? i with
    | none => rw [hgb] at hg; simp at hg
    | some b =>
        rw [hgb] at hg
        simp only [Option.map_some', Option.some.injEq] at hg
        by_cases hwin : (b.markNumber v).do_we_have_a_winner = true
        · rw [if_pos hwin] at hg
          subst hg
          constructor
          · intro _
            exact (winner_iff_hasFullLine _).mp hwin
          · intro _
            exact ⟨(bingoStep_newWin_iff bs w v i hi).mpr ⟨b, hgb, hwin⟩, rfl⟩
        · rw [if_neg hwin] at hg
          subst hg
          constructor
          · rintro ⟨hmem, _⟩
            obtain ⟨b2, hgb2, hwin2⟩ := (bingoStep_newWin_iff bs w v i hi).mp hmem
            rw [hgb] at hgb2
            simp only [Option.some.injEq] at hgb2
            rw [← hgb2] at hwin2
            exact absurd hwin2 hwin
          · intro hfl
            exact absurd ((winner_iff_hasFullLine (b.markNumber v)).mpr hfl) hwin
  · exact ⟨winScan w 0 (markPass w v 0 bs), bingoStep_snd bs w v,
      winScan_pairwise w (markPass w v 0 bs) 0⟩
  · intro h
    show (if (bingoStep (bs, w) v).2.length = (bingoStep (bs, w) v).1.length
        then bingoStep (bs, w) v
        else bingoReplay (bingoStep (bs, w) v) rest) = bingoStep (bs, w) v
    rw [if_pos h]

/-- Witness for C2, discharging each kind of hypothesis at concrete
states: a board whose index is already recorded as won is untouched; a
fresh single-cell board `[[5]]` is marked for the draw `5`, wins, and is
crowned with `5` while board `[[7]]` is not; and a replay whose first
draw makes every board win stops there. -/
theorem C2_witness :
    (bingoStep ([Board.mkBoard [[5]]], [0]) 9).1.get? 0 = [Board.mkBoard [[5]]].get? 0 ∧
    (bingoStep ([Board.mkBoard [[5]], Board.mkBoard [[7]]], []) 5).1.get? 0 =
      ([Board.mkBoard [[5]], Board.mkBoard [[7]]].get? 0).map (fun b =>
        if (b.markNumber 5).do_we_have_a_winner
        then { b.markNumber 5 with winning_number := some 5 }
        else b.markNumber 5) ∧
    ((0 ∈ (bingoStep ([Board.mkBoard [[5]], Board.mkBoard [[7]]], []) 5).2 ∧
        (Board.mk [[5]] [[true]] (some 5)).winning_number = some 5) ↔
      hasFullLine (Board.mk [[5]] [[true]] (some 5)).marked) ∧
    bingoReplay ([Board.mkBoard [[5]]], []) [5, 9] =
      bingoStep ([Board.mkBoard [[5]]], []) 5 :=
  ⟨(C2_replay_step [Board.mkBoard [[5]]] [0] 9 []).1 0 (by decide),
    (C2_replay_step [Board.mkBoard [[5]], Board.mkBoard [[7]]] [] 5 []).2.1 0 (by decide),
    (C2_replay_step [Board.mkBoard [[5]], Board.mkBoard [[7]]] [] 5 []).2.2.1 0
      ⟨[[5]], [[true]], some 5⟩ (by decide) (by decide),
    (C2_replay_step [Board.mkBoard [[5]]] [] 5 [9]).2.2.2.2 (by decide)⟩

/-- C8: `Bingo.from_str` fails (producing `none`, hence no partial
`Bingo` object) whenever the draw line is empty, whenever some board
block has rows with unequal token counts, or whenever some board cell
token is not an integer. -/
theorem C8_parse_failures (config : String)
    (h : drawLineEmpty config ∨ hasRaggedBlock config ∨ hasBadToken config) :
    Bingo.from_str config = none := by
  cases hsplit : pySplit "\n\n" (pyStrip config) with
  | nil => unfold Bingo.from_str; rw [hsplit]
  | cons rawNum rawBoards =>
      rw [Bingo_from_str_cons hsplit]
      rcases h with h | h | h
      · unfold drawLineEmpty at h
        rw [hsplit] at h
        simp only [List.headD_cons] at h
        subst h
        rw [show listTraverse pyInt? (pySplit "," "") = none from by decide]
      · unfold hasRaggedBlock at h
        rw [hsplit] at h
        simp only [List.tail_cons] at h
        obtain ⟨blk, hblk, hrect⟩ := h
        cases listTraverse pyInt? (pySplit "," rawNum) with
        | none => rfl
        | some nums =>
            rw [listTraverse_none Board.from_str hblk (Board_from_str_ragged hrect)]
      · unfold hasBadToken at h
        rw [hsplit] at h
        simp only [List.tail_cons] at h
        obtain ⟨blk, hblk, hbad⟩ := h
        cases listTraverse pyInt? (pySplit "," rawNum) with
        | none => rfl
        | some nums =>
            rw [listTraverse_none Board.from_str hblk (Board_from_str_badToken hbad)]

/-- Witness for C8 on three concrete malformed inputs, one per failure
condition: an empty input (empty draw line), a ragged board block, and a
non-integer cell token. -/
theorem C8_witness :
    (drawLineEmpty "" ∧ Bingo.from_str "" = none) ∧
    (hasRaggedBlock "1\n\n1 2\n3" ∧ Bingo.from_str "1\n\n1 2\n3" = none) ∧
    (hasBadToken "1\n\nx" ∧ Bingo.from_str "1\n\nx" = none) :=
  ⟨⟨by unfold drawLineEmpty; decide,
      C8_parse_failures "" (Or.inl (by unfold drawLineEmpty; decide))⟩,
    ⟨by unfold hasRaggedBlock; decide,
      C8_parse_failures "1\n\n1 2\n3"
        (Or.inr (Or.inl (by unfold hasRaggedBlock; decide)))⟩,
    ⟨by unfold hasBadToken; decide,
      C8_parse_failures "1\n\nx"
        (Or.inr (Or.inr (by unfold hasBadToken; decide)))⟩⟩

/-- C9: once a board's index is recorded in `winning_board_idx`, the rest
of the replay never changes that board: its entry in the board list, and
hence its `unmarked_sum` and recorded winning number, are the same after
the remaining draws as at the moment it won, and its index stays
recorded. -/
theorem C9_won_boards_frozen (bs : List Board) (w : List Nat) (draws : List Int)
    (i : Nat) (hi : i ∈ w) :
    (bingoReplay (bs, w) draws).1.get? i = bs.get? i ∧
    i ∈ (bingoReplay (bs, w) draws).2 ∧
    ((bingoReplay (bs, w) draws).1.get? i).map Board.unmarked_sum =
      (bs.get? i).map Board.unmarked_sum ∧
    ((bingoReplay (bs, w) draws).1.get? i).map Board.winning_number =
      (bs.get? i).map Board.winning_number := by
  obtain ⟨h1, h2⟩ := bingoReplay_frame draws bs w i hi
  exact ⟨h1, h2, by rw [h1], by rw [h1]⟩

/-- Witness for C9: board `0`, already recorded as won, is untouched by a
further draw `1` that would otherwise mark its only cell. -/
theorem C9_witness :
    (0 ∈ [0]) ∧
    (bingoReplay ([Board.mkBoard [[1]]], [0]) [1]).1.get? 0 =
      [Board.mkBoard [[1]]].get? 0 ∧
    0 ∈ (bingoReplay ([Board.mkBoard [[1]]], [0]) [1]).2 :=
  ⟨by decide,
    (C9_won_boards_frozen [Board.mkBoard [[1]]] [0] [1] 0 (by decide)).1,
    (C9_won_boards_frozen [Board.mkBoard [[1]]] [0] [1] 0 (by decide)).2.1⟩

end Day4
